import Mathlib

/-!
Verification development for the face-analysis pipeline:
anchor decoder, weighted non-max suppression, geometric box refinement,
the emotion-classifier decision rule, and the result aggregator.

Machine floats are modelled by exact rationals.  The only transcendental
functions the code uses (`np.exp` inside the sigmoid / softmax) cannot be
rational-valued, so every definition that needs them takes the exponential
map as an explicit parameter `E : ℚ → ℚ`; concrete statements instantiate
it with the stand-in `expQ`, which agrees with the true exponential at `0`,
the only point where concrete statements evaluate it.
-/

namespace FaceAnalysis

/-- Numeric floor placed on the union denominator of the IoU
(`np.clip(union, a_min=1e-6, a_max=None)` in `FaceDetection._jaccard`). -/
def unionFloor : ℚ := 1 / 1000000

/-- A box in the storage order used by the decoder: `(ymin, xmin, ymax, xmax)`.
`_jaccard` reads the first two entries as the min corner and the last two as
the max corner. -/
structure Box where
  ymin : ℚ
  xmin : ℚ
  ymax : ℚ
  xmax : ℚ
deriving DecidableEq

/-- `FaceDetection._intersect`: per-axis overlap clipped at `0`, multiplied. -/
def intersectArea (a b : Box) : ℚ :=
  max (min a.ymax b.ymax - max a.ymin b.ymin) 0 *
    max (min a.xmax b.xmax - max a.xmin b.xmin) 0

/-- Signed box area `(box[2] - box[0]) * (box[3] - box[1])` as computed in
`FaceDetection._jaccard` (no absolute value is taken). -/
def boxArea (a : Box) : ℚ := (a.ymax - a.ymin) * (a.xmax - a.xmin)

/-- `FaceDetection._jaccard`: intersection over union with the `1e-6` floor
on the denominator. -/
def jaccard (a b : Box) : ℚ :=
  intersectArea a b / max (boxArea a + boxArea b - intersectArea a b) unionFloor

/-- One suppression-stage detection: the 16 decoded coordinate values
(`detection[:16]`, first four being `(ymin, xmin, ymax, xmax)`) and the
confidence score (`detection[16]`). -/
structure Det where
  coords : List ℚ
  score : ℚ
deriving DecidableEq

/-- The box slice `detection[:4]` of a suppression-stage detection. -/
def Det.box (d : Det) : Box :=
  ⟨d.coords.getD 0 0, d.coords.getD 1 0, d.coords.getD 2 0, d.coords.getD 3 0⟩

/-- Sum of the scores of a list of detections. -/
def totalScore (l : List Det) : ℚ := (l.map Det.score).sum

/-- Weighted merge of an overlapping set, as in
`FaceDetection._weighted_non_max_suppression`: each of the 16 coordinates is
`sum(coordinates * scores) / total_score`, and the merged score is
`total_score / overlapping.size`. -/
def weightedAvg (l : List Det) : Det where
  coords := (List.range 16).map fun j =>
    (l.map fun d => d.coords.getD j 0 * d.score).sum / totalScore l
  score := totalScore l / (l.length : ℚ)

/-- The overlapping set of one suppression round: every remaining detection
whose IoU with the candidate box strictly exceeds the threshold (`ious >
min_suppression_threshold`); the candidate itself is part of `rem`. -/
def overlapSet (thr : ℚ) (c : Det) (rem : List Det) : List Det :=
  rem.filter fun d => decide (thr < jaccard c.box d.box)

/-- The detections kept for later rounds (`remaining[~mask]`). -/
def keptSet (thr : ℚ) (c : Det) (rem : List Det) : List Det :=
  rem.filter fun d => !decide (thr < jaccard c.box d.box)

/-- The detection emitted in one round: the weighted merge when the
overlapping set has more than one member, otherwise the candidate
unchanged (`weighted_detection = detection.copy()`). -/
def roundOutput (thr : ℚ) (c : Det) (rem : List Det) : Det :=
  if 1 < (overlapSet thr c rem).length then weightedAvg (overlapSet thr c rem) else c

/-- The `while remaining.size > 0` loop of
`FaceDetection._weighted_non_max_suppression`, written with explicit fuel:
the Python loop need not terminate (a round in which the candidate is not
absorbed into the overlapping set leaves `remaining` unchanged), and `none`
models a run that has not finished within the given number of rounds. -/
def wnmsFuel (thr : ℚ) : Nat → List Det → Option (List Det)
  | _, [] => some []
  | 0, _ :: _ => none
  | fuel + 1, c :: rest =>
      (wnmsFuel thr fuel (keptSet thr c (c :: rest))).map
        fun out => roundOutput thr c (c :: rest) :: out

/-- Insertion into a list sorted by descending score. -/
def insertDesc (d : Det) : List Det → List Det
  | [] => [d]
  | x :: xs => if x.score ≤ d.score then d :: x :: xs else x :: insertDesc d xs

/-- Sorting by descending score, modelling `np.argsort(detections[:, 16])[::-1]`. -/
def sortDesc : List Det → List Det
  | [] => []
  | x :: xs => insertDesc x (sortDesc xs)

/-- Weighted non-max suppression on a detection list: sort by descending
score, then run the suppression loop.  The fuel is the input length, which
suffices whenever every round drops at least the candidate. -/
def wnms (dets : List Det) (thr : ℚ) : Option (List Det) :=
  wnmsFuel thr dets.length (sortDesc dets)

/-- One anchor record `(cx, cy, w, h)` of the `896 × 4` anchor table
(`anchors[:, 0], anchors[:, 1], anchors[:, 2], anchors[:, 3]`). -/
structure Anchor where
  cx : ℚ
  cy : ℚ
  w : ℚ
  h : ℚ
deriving DecidableEq

/-- The four per-axis scale constants (`x_scale`, `y_scale`, `w_scale`,
`h_scale`) of `FaceDetection.__init__`. -/
structure Scales where
  xs : ℚ
  ys : ℚ
  ws : ℚ
  hs : ℚ
deriving DecidableEq

/-- Scales of the front (128-resolution) detector variant. -/
def frontScales : Scales := ⟨128, 128, 128, 128⟩

/-- Scales of the back (256-resolution) detector variant. -/
def backScales : Scales := ⟨256, 256, 256, 256⟩

/-- `FaceDetection._decode_boxes` on one raw row of 16 values: the center is
`raw / scale * anchor_size + anchor_center`, the size is
`raw / scale * anchor_size`; corners `center ± size/2` are stored in
`(ymin, xmin, ymax, xmax)` order and the six keypoint pairs (starting at
column 4) decode with the same formula as the center. -/
def decodeRow (s : Scales) (a : Anchor) (raw : List ℚ) : List ℚ :=
  let r : Nat → ℚ := fun i => raw.getD i 0
  let xc := r 0 / s.xs * a.w + a.cx
  let yc := r 1 / s.ys * a.h + a.cy
  let w := r 2 / s.ws * a.w
  let h := r 3 / s.hs * a.h
  [yc - h / 2, xc - w / 2, yc + h / 2, xc + w / 2] ++
    (List.range 6).flatMap fun k =>
      [r (4 + 2 * k) / s.xs * a.w + a.cx, r (4 + 2 * k + 1) / s.ys * a.h + a.cy]

/-- The decoding formula exactly as the claim words it: center
`raw / scale + anchor_center` (no anchor-size factor), size
`raw / scale * anchor_size`, keypoints decoded like the center.  Written
for comparison with `decodeRow`, which embeds the source. -/
def decodeRowClaimed (s : Scales) (a : Anchor) (raw : List ℚ) : List ℚ :=
  let r : Nat → ℚ := fun i => raw.getD i 0
  let xc := r 0 / s.xs + a.cx
  let yc := r 1 / s.ys + a.cy
  let w := r 2 / s.ws * a.w
  let h := r 3 / s.hs * a.h
  [yc - h / 2, xc - w / 2, yc + h / 2, xc + w / 2] ++
    (List.range 6).flatMap fun k =>
      [r (4 + 2 * k) / s.xs + a.cx, r (4 + 2 * k + 1) / s.ys + a.cy]

/-- Row-wise decoding over the anchor table. -/
def decodeBoxes (s : Scales) (anchors : List Anchor) (rawBoxes : List (List ℚ)) :
    List (List ℚ) :=
  List.zipWith (decodeRow s) anchors rawBoxes

/-- `np.clip(x, lo, hi)`. -/
def clipQ (lo hi x : ℚ) : ℚ := min (max x lo) hi

/-- The logistic sigmoid `1 / (1 + exp(-x))` of `FaceDetection._sigmoid`,
parameterised by the exponential map. -/
def sigmoidQ (E : ℚ → ℚ) (x : ℚ) : ℚ := 1 / (1 + E (-x))

/-- Rational stand-in for the exponential map.  `exp` is transcendental, so
it cannot be a function `ℚ → ℚ`; this stand-in agrees with the true
exponential at `0` (`expQ 0 = 1`), which is the only point at which any
concrete statement below evaluates it. -/
def expQ (x : ℚ) : ℚ := 1 + x

/-- `FaceDetection._postprocess`: clip the raw score logits to `±100`,
apply the sigmoid, keep the slots whose confidence reaches the score
threshold, pair them with their decoded rows, and run weighted suppression. -/
def postprocessDets (E : ℚ → ℚ) (s : Scales) (anchors : List Anchor)
    (rawBoxes : List (List ℚ)) (rawScores : List ℚ) (minScore thr : ℚ) :
    Option (List Det) :=
  let scores := rawScores.map fun r => sigmoidQ E (clipQ (-100) 100 r)
  let dets := ((decodeBoxes s anchors rawBoxes).zip scores).filterMap fun p =>
    if minScore ≤ p.2 then some (⟨p.1, p.2⟩ : Det) else none
  wnms dets thr

/-- Final integer pixel box in `(xmin, ymin, xmax, ymax)` order, as stored in
the `Detection` dataclass. -/
structure PxBox where
  xmin : ℤ
  ymin : ℤ
  xmax : ℤ
  ymax : ℤ
deriving DecidableEq

/-- `int(np.clip(v, 0, dim - 1))`: clamp to `[0, dim-1]` and truncate.  The
clamped value is nonnegative, so Python `int` truncation is the floor. -/
def pxClamp (v : ℚ) (dim : ℤ) : ℤ := ⌊min (max v 0) ((dim : ℚ) - 1)⌋

/-- Python `round` (as applied by `int(round(x))` in `FaceDetection.detect`):
round half to even. -/
def pyRound (q : ℚ) : ℤ :=
  if q - ⌊q⌋ < 1 / 2 then ⌊q⌋
  else if 1 / 2 < q - ⌊q⌋ then ⌊q⌋ + 1
  else if Even ⌊q⌋ then ⌊q⌋ else ⌊q⌋ + 1

/-- The six keypoints of a detection, scaled to pixels and clamped, in the
order produced by the `for k in range(6)` loop of `FaceDetection.detect`. -/
def kpsOf (width height : ℤ) (d : Det) : List (ℤ × ℤ) :=
  (List.range 6).map fun k =>
    (pxClamp (d.coords.getD (4 + 2 * k) 0 * (width : ℚ)) width,
     pxClamp (d.coords.getD (5 + 2 * k) 0 * (height : ℚ)) height)

/-- The raw clamped detection box of `FaceDetection.detect` before any
tightening: every coordinate scaled to pixels and clamped independently. -/
def rawPxBox (width height : ℤ) (d : Det) : PxBox :=
  ⟨pxClamp (d.coords.getD 1 0 * (width : ℚ)) width,
   pxClamp (d.coords.getD 0 0 * (height : ℚ)) height,
   pxClamp (d.coords.getD 3 0 * (width : ℚ)) width,
   pxClamp (d.coords.getD 2 0 * (height : ℚ)) height⟩

/-- `left_gap = abs(left_anchor[0] - eye_left[0])`: keypoint 4 is the left
ear anchor, keypoint 0 the left eye. -/
def leftGap (kps : List (ℤ × ℤ)) : ℤ :=
  |(kps.getD 4 (0, 0)).1 - (kps.getD 0 (0, 0)).1|

/-- `right_gap = abs(right_anchor[0] - eye_right[0])`: keypoint 5 is the
right ear anchor, keypoint 1 the right eye. -/
def rightGap (kps : List (ℤ × ℤ)) : ℤ :=
  |(kps.getD 5 (0, 0)).1 - (kps.getD 1 (0, 0)).1|

/-- The tilt test of `FaceDetection.detect`: both gaps positive and one gap
strictly larger than twice the other. -/
def highlyTilted (kps : List (ℤ × ℤ)) : Prop :=
  0 < rightGap kps ∧ 0 < leftGap kps ∧
    (2 * rightGap kps < leftGap kps ∨ 2 * leftGap kps < rightGap kps)

instance (kps : List (ℤ × ℤ)) : Decidable (highlyTilted kps) := by
  unfold highlyTilted; infer_instance

/-- The final integer adjustments of the tightening step:
`xmin = max(xmin, 0)`, `xmax = max(xmax, xmin + 1)`,
`xmax = min(xmax, width - 1)`, `xmin = min(xmin, xmax - 1)`. -/
def tightenFinalX (width a b : ℤ) : ℤ × ℤ :=
  let xminA := max a 0
  let xmaxA := min (max b (xminA + 1)) (width - 1)
  (min xminA (xmaxA - 1), xmaxA)

/-- The rational part of the tightening step, producing the two values fed
to `int(round(...))`. -/
def tightenSpanX (width : ℤ) (kps : List (ℤ × ℤ)) : ℚ × ℚ :=
  let leftAnchorX : ℤ := (kps.getD 4 (0, 0)).1
  let rightAnchorX : ℤ := (kps.getD 5 (0, 0)).1
  let anchorWidth : ℚ := max ((rightAnchorX : ℚ) - (leftAnchorX : ℚ)) 1
  let anchorCenterX : ℚ := ((leftAnchorX : ℚ) + (rightAnchorX : ℚ)) / 2
  let halfWidth : ℚ := max (anchorWidth * (19 / 20) * (1 / 2)) 1
  let baseXmin := anchorCenterX - halfWidth
  let baseXmax := anchorCenterX + halfWidth
  let noseX : ℚ := ((kps.getD 2 (0, 0)).1 : ℚ)
  let widthSpan : ℚ := max (baseXmax - baseXmin) 1
  let cXmin := max (noseX - widthSpan / 2) 0
  let cXmax := min (noseX + widthSpan / 2) ((width : ℚ) - 1)
  let span := cXmax - cXmin
  let dXmin := if span < widthSpan then max (cXmin - (widthSpan - span) / 2) 0 else cXmin
  let dXmax :=
    if span < widthSpan then min (cXmax + (widthSpan - span) / 2) ((width : ℚ) - 1) else cXmax
  (dXmin, dXmax)

/-- The horizontal tightening step of `FaceDetection.detect` (non-tilted
branch): recenter on the ear midpoint with half-width
`max(anchor_width * 0.95 * 0.5, 1)`, re-center the span on the nose x,
clamp to frame width, redistribute any deficit symmetrically, round, and
force `xmin < xmax` by the final max/min adjustments. -/
def tightenX (width : ℤ) (kps : List (ℤ × ℤ)) : ℤ × ℤ :=
  tightenFinalX width (pyRound (tightenSpanX width kps).1) (pyRound (tightenSpanX width kps).2)

/-- The final per-face record built by `FaceDetection.detect`
(the `Detection` dataclass). -/
structure PyDetection where
  box : PxBox
  score : ℚ
  keypoints : List (ℤ × ℤ)
deriving DecidableEq

/-- The per-detection refinement stage of `FaceDetection.detect` (after
suppression): clamp everything to pixels, then either keep the raw clamped
box (highly tilted face) or tighten its horizontal extent. -/
def refineDetection (width height : ℤ) (d : Det) : PyDetection :=
  let b := rawPxBox width height d
  let kps := kpsOf width height d
  if highlyTilted kps then ⟨b, d.score, kps⟩
  else
    let t := tightenX width kps
    ⟨⟨t.1, b.ymin, t.2, b.ymax⟩, d.score, kps⟩

/-- `FaceDetection.detect` from the raw network outputs onward: decode,
threshold, suppress, then refine each surviving detection on the given
frame. -/
def detect (E : ℚ → ℚ) (s : Scales) (anchors : List Anchor)
    (rawBoxes : List (List ℚ)) (rawScores : List ℚ) (minScore thr : ℚ)
    (width height : ℤ) : Option (List PyDetection) :=
  (postprocessDets E s anchors rawBoxes rawScores minScore thr).map fun l =>
    l.map (refineDetection width height)

/-- The fixed emotion class list of `EmotionPredictor`. -/
def emotionClasses : List String :=
  ["angry", "disgust", "fear", "happy", "sad", "surprise", "neutral"]

/-- Maximum of a list of rationals (`np.max` along a row). -/
def listMax : List ℚ → ℚ
  | [] => 0
  | x :: xs => xs.foldl max x

/-- The numerically stable softmax of `EmotionPredictor.postprocess`:
subtract the row maximum, exponentiate, divide by the sum. -/
def softmaxRow (E : ℚ → ℚ) (row : List ℚ) : List ℚ :=
  let m := listMax row
  let exps := row.map fun v => E (v - m)
  exps.map fun e => e / exps.sum

/-- Helper for `argmaxQ`: scan with the current best index and value. -/
def argmaxAux : Nat → Nat → ℚ → List ℚ → Nat
  | _, best, _, [] => best
  | i, best, bv, x :: xs =>
      if bv < x then argmaxAux (i + 1) i x xs else argmaxAux (i + 1) best bv xs

/-- `np.argmax`: index of the first occurrence of the maximum. -/
def argmaxQ : List ℚ → Nat
  | [] => 0
  | x :: xs => argmaxAux 1 0 x xs

/-- Python list subscription, including the negative-index wraparound:
`l[i]` is `l[len(l) + i]` for `-len(l) ≤ i < 0`; `none` models an
`IndexError`. -/
def pyGet {α : Type} (l : List α) (i : ℤ) : Option α :=
  if 0 ≤ i then l.get? i.toNat
  else if 0 ≤ (l.length : ℤ) + i then l.get? ((l.length : ℤ) + i).toNat
  else none

/-- The per-row decision rule of `EmotionPredictor.postprocess` after the
softmax: take the argmax and its probability, replace the class by the
sentinel `-1` when the confidence is below `0.5`, then look the resulting
index up in `self.classes` (Python subscription, so `-1` wraps around to
the last class). -/
def emotionDecideRow (probability : List ℚ) : Option (String × ℚ) :=
  let label := argmaxQ probability
  let confidence := probability.getD label 0
  let emotionIndex : ℤ := if confidence < 1 / 2 then -1 else (label : ℤ)
  (pyGet emotionClasses emotionIndex).map fun name => (name, confidence)

/-- `EmotionPredictor.postprocess` on a batch of logit rows: softmax each
row, then apply the decision rule; the returned tuple carries the resolved
label, the confidence and the probability row. -/
def emotionPostprocess (E : ℚ → ℚ) : List (List ℚ) → Option (List (String × ℚ × List ℚ))
  | [] => some []
  | row :: rest =>
      match emotionDecideRow (softmaxRow E row) with
      | some nc => (emotionPostprocess E rest).map ((nc.1, nc.2, softmaxRow E row) :: ·)
      | none => none

/-- An emotion label as the aggregator leaves it: either a name substituted
from the external label list, or the raw index passed through unchanged. -/
inductive EmoLabel where
  | known : String → EmoLabel
  | raw : ℤ → EmoLabel
deriving DecidableEq

/-- The label resolution of `StreamingFaceAnalysis.analyze`:
`self.emotion_labels[label_idx] if self.emotion_labels is not None and
0 <= label_idx < len(self.emotion_labels) else label_idx`. -/
def resolveEmotionLabel (labels : Option (List String)) (labelIdx : ℤ) :
    Option EmoLabel :=
  match labels with
  | some l =>
      if 0 ≤ labelIdx ∧ labelIdx < (l.length : ℤ) then
        (pyGet l labelIdx).map EmoLabel.known
      else some (EmoLabel.raw labelIdx)
  | none => some (EmoLabel.raw labelIdx)

/-- One `AggregatedFaceResult` record. -/
structure AggResult where
  bbox : PxBox
  score : ℚ
  keypoints : List (ℤ × ℤ)
  gender : Option String
  ageBucket : Option String
  emotionLabel : Option EmoLabel
  emotionConfidence : Option ℚ
  emotionDistribution : Option (List ℚ)
deriving DecidableEq

/-- The body of the aggregation loop of `StreamingFaceAnalysis.analyze` for
one detection at position `idx`: attributes are joined by index, and an
index beyond a classifier result list leaves the corresponding fields
`none`. -/
def aggregateOne (gaResults : List (String × String))
    (emResults : List (ℤ × ℚ × List ℚ)) (labels : Option (List String))
    (idx : Nat) (det : PyDetection) : Option AggResult :=
  let ga := gaResults.get? idx
  match emResults.get? idx with
  | some e =>
      (resolveEmotionLabel labels e.1).map fun el =>
        ⟨det.box, det.score, det.keypoints, ga.map Prod.fst, ga.map Prod.snd,
          some el, some e.2.1, some e.2.2⟩
  | none =>
      some ⟨det.box, det.score, det.keypoints, ga.map Prod.fst, ga.map Prod.snd,
        none, none, none⟩

/-- The `for idx, det in enumerate(detections)` loop of
`StreamingFaceAnalysis.analyze` from position `idx` on; `none` models an
uncaught exception inside the loop. -/
def aggregateFrom (gaResults : List (String × String))
    (emResults : List (ℤ × ℚ × List ℚ)) (labels : Option (List String)) :
    Nat → List PyDetection → Option (List AggResult)
  | _, [] => some []
  | idx, det :: rest =>
      match aggregateOne gaResults emResults labels idx det with
      | some r => (aggregateFrom gaResults emResults labels (idx + 1) rest).map (r :: ·)
      | none => none

/-- The aggregation loop of `StreamingFaceAnalysis.analyze`: one record per
detection, in detection order. -/
def aggregate (dets : List PyDetection) (gaResults : List (String × String))
    (emResults : List (ℤ × ℚ × List ℚ)) (labels : Option (List String)) :
    Option (List AggResult) :=
  aggregateFrom gaResults emResults labels 0 dets

/-- A detection whose box is well formed for suppression: ordered corners
and an area reaching the union floor, so that its IoU with itself is `1`. -/
def wfDet (d : Det) : Prop :=
  d.box.ymin ≤ d.box.ymax ∧ d.box.xmin ≤ d.box.xmax ∧ unionFloor ≤ boxArea d.box

/-- Concrete anchor table for the detect-stage counterexample: a single
anchor centred at `(1/2, 1/2)` with unit size. -/
def c3Anchors : List Anchor := [⟨1 / 2, 1 / 2, 1, 1⟩]

/-- Concrete raw detector row for the detect-stage counterexample: the box
decodes to normalized corners `(3/2, 3/2, 5/2, 5/2)` (entirely beyond the
frame), and the keypoints decode to a tilted configuration. -/
def c3Row : List ℚ := [192, 192, 128, 128, -14, 0, 16, 0, 0, 0, 0, 0, -4, 0, 46, 0]

/-- The suppressed detection `c3Row` decodes to (score `sigmoid(0) = 1/2`). -/
def c3Dec : Det :=
  ⟨[3 / 2, 3 / 2, 5 / 2, 5 / 2, 25 / 64, 1 / 2, 5 / 8, 1 / 2, 1 / 2, 1 / 2,
    1 / 2, 1 / 2, 15 / 32, 1 / 2, 55 / 64, 1 / 2], 1 / 2⟩

/-- The detection `detect` produces on `c3Row`: a fully collapsed box. -/
def c3Bad : PyDetection :=
  ⟨⟨127, 127, 127, 127⟩, 1 / 2,
    [(50, 64), (80, 64), (64, 64), (64, 64), (60, 64), (110, 64)]⟩

/-- Concrete suppressed detection for the tilt scenario: on a `200 × 200`
frame its keypoints land at ear/eye gaps `10` and `30`. -/
def c7Det : Det :=
  ⟨[1 / 10, 1 / 10, 2 / 5, 9 / 20, 1 / 4, 1 / 4, 1 / 2, 1 / 4, 3 / 8, 1 / 4,
    3 / 8, 1 / 4, 3 / 10, 1 / 4, 13 / 20, 1 / 4], 9 / 10⟩

/-- First detection of the weighted-merge scenario: unit box, score `4/5`. -/
def c6DetA : Det := ⟨[0, 0, 1, 1, 0, 0, 0, 0, 0, 0, 0, 0, 0, 0, 0, 0], 4 / 5⟩

/-- Second detection of the weighted-merge scenario: half-width box with IoU
`1/2` against the first, score `3/5`. -/
def c6DetB : Det := ⟨[0, 0, 1, 1 / 2, 0, 0, 0, 0, 0, 0, 0, 0, 0, 0, 0, 0], 3 / 5⟩

/-- The weighted merge of the two scenario detections. -/
def c6Merged : Det :=
  ⟨[0, 0, 1, 11 / 14, 0, 0, 0, 0, 0, 0, 0, 0, 0, 0, 0, 0], 7 / 10⟩

/-- A detection with inverted corners: its signed area is `1`, yet its IoU
with itself is `0`, so suppression never removes it from the remaining set. -/
def c10Det : Det := ⟨[1, 1, 0, 0, 0, 0, 0, 0, 0, 0, 0, 0, 0, 0, 0, 0], 1 / 2⟩

/-- A box with strictly positive area `10⁻⁸` below the union floor. -/
def c8TinyBox : Box := ⟨0, 0, 1 / 10000, 1 / 10000⟩

/-- Raw detector row whose first offset is `128`, exposing the difference
between the source decoding formula and the claimed one on an anchor of
size `1/2`. -/
def c4Row : List ℚ := [128, 0, 0, 0, 0, 0, 0, 0, 0, 0, 0, 0, 0, 0, 0, 0]

/-- A single well-formed detection used to exercise a suppression run. -/
def c5Det : Det := ⟨[0, 0, 3, 3, 0, 0, 0, 0, 0, 0, 0, 0, 0, 0, 0, 0], 1⟩

/-- A single well-formed detection used to exercise one suppression round. -/
def c6Single : Det := ⟨[0, 0, 2, 3, 0, 0, 0, 0, 0, 0, 0, 0, 0, 0, 0, 0], 1⟩

/-- A well-formed detection used by the termination witness. -/
def c10Wf : Det := ⟨[0, 0, 2, 2, 0, 0, 0, 0, 0, 0, 0, 0, 0, 0, 0, 0], 1⟩

/-- An ordered detection used by the refinement-bounds witness. -/
def c3Wit : Det := ⟨[0, 0, 1, 1, 0, 0, 0, 0, 0, 0, 0, 0, 0, 0, 0, 0], 1⟩

/-- Concrete detections for the aggregator scenario. -/
def c9Det0 : PyDetection := ⟨⟨0, 0, 10, 10⟩, 1, [(1, 1)]⟩

/-- Second concrete detection for the aggregator scenario. -/
def c9Det1 : PyDetection := ⟨⟨5, 5, 20, 20⟩, 1, []⟩

theorem unionFloor_pos : (0 : ℚ) < unionFloor := by norm_num [unionFloor]

theorem intersectArea_comm (a b : Box) : intersectArea a b = intersectArea b a := by
  unfold intersectArea
  rw [min_comm a.ymax, max_comm a.ymin, min_comm a.xmax, max_comm a.xmin]

theorem intersectArea_nonneg (a b : Box) : 0 ≤ intersectArea a b :=
  mul_nonneg (le_max_right _ _) (le_max_right _ _)

theorem jaccard_comm (a b : Box) : jaccard a b = jaccard b a := by
  unfold jaccard
  rw [intersectArea_comm, add_comm (boxArea a)]

theorem jaccard_nonneg (a b : Box) : 0 ≤ jaccard a b := by
  unfold jaccard
  exact div_nonneg (intersectArea_nonneg a b)
    (le_trans unionFloor_pos.le (le_max_right _ _))

theorem intersectArea_self (a : Box) (hy : a.ymin ≤ a.ymax) (hx : a.xmin ≤ a.xmax) :
    intersectArea a a = boxArea a := by
  unfold intersectArea boxArea
  rw [min_self, min_self, max_self, max_self, max_eq_left (sub_nonneg.mpr hy),
    max_eq_left (sub_nonneg.mpr hx)]

theorem jaccard_self_eq_one (a : Box) (hy : a.ymin ≤ a.ymax) (hx : a.xmin ≤ a.xmax)
    (hA : unionFloor ≤ boxArea a) : jaccard a a = 1 := by
  unfold jaccard
  rw [intersectArea_self a hy hx]
  have h2 : boxArea a + boxArea a - boxArea a = boxArea a := by ring
  rw [h2, max_eq_left hA]
  exact div_self (by linarith [unionFloor_pos])

theorem jaccard_le_jaccard_self (a b : Box) : jaccard a b ≤ jaccard a a := by
  by_cases hz : intersectArea a b = 0
  · rw [jaccard, hz, zero_div]
    exact jaccard_nonneg a a
  · have hp0 : (0 : ℚ) ≤ max (min a.ymax b.ymax - max a.ymin b.ymin) 0 := le_max_right _ _
    have hq0 : (0 : ℚ) ≤ max (min a.xmax b.xmax - max a.xmin b.xmin) 0 := le_max_right _ _
    have hI0 : 0 < intersectArea a b :=
      lt_of_le_of_ne (intersectArea_nonneg a b) (Ne.symm hz)
    have hpPos : 0 < max (min a.ymax b.ymax - max a.ymin b.ymin) 0 := by
      rcases lt_or_eq_of_le hp0 with h | h
      · exact h
      · exfalso
        rw [intersectArea, ← h, zero_mul] at hI0
        exact lt_irrefl 0 hI0
    have hqPos : 0 < max (min a.xmax b.xmax - max a.xmin b.xmin) 0 := by
      rcases lt_or_eq_of_le hq0 with h | h
      · exact h
      · exfalso
        rw [intersectArea, ← h, mul_zero] at hI0
        exact lt_irrefl 0 hI0
    have hpx : max (min a.ymax b.ymax - max a.ymin b.ymin) 0 =
        min a.ymax b.ymax - max a.ymin b.ymin := by
      by_cases h : 0 ≤ min a.ymax b.ymax - max a.ymin b.ymin
      · exact max_eq_left h
      · exfalso
        rw [max_eq_right (le_of_lt (not_le.mp h))] at hpPos
        exact lt_irrefl 0 hpPos
    have hqx : max (min a.xmax b.xmax - max a.xmin b.xmin) 0 =
        min a.xmax b.xmax - max a.xmin b.xmin := by
      by_cases h : 0 ≤ min a.xmax b.xmax - max a.xmin b.xmin
      · exact max_eq_left h
      · exfalso
        rw [max_eq_right (le_of_lt (not_le.mp h))] at hqPos
        exact lt_irrefl 0 hqPos
    have hyA : 0 < min a.ymax b.ymax - max a.ymin b.ymin := by rw [← hpx]; exact hpPos
    have hxA : 0 < min a.xmax b.xmax - max a.xmin b.xmin := by rw [← hqx]; exact hqPos
    have hpA : min a.ymax b.ymax - max a.ymin b.ymin ≤ a.ymax - a.ymin := by
      have := min_le_left a.ymax b.ymax
      have := le_max_left a.ymin b.ymin
      linarith
    have hpB : min a.ymax b.ymax - max a.ymin b.ymin ≤ b.ymax - b.ymin := by
      have := min_le_right a.ymax b.ymax
      have := le_max_right a.ymin b.ymin
      linarith
    have hqA : min a.xmax b.xmax - max a.xmin b.xmin ≤ a.xmax - a.xmin := by
      have := min_le_left a.xmax b.xmax
      have := le_max_left a.xmin b.xmin
      linarith
    have hqB : min a.xmax b.xmax - max a.xmin b.xmin ≤ b.xmax - b.xmin := by
      have := min_le_right a.xmax b.xmax
      have := le_max_right a.xmin b.xmin
      linarith
    have hIA : intersectArea a b ≤ boxArea a := by
      rw [intersectArea, boxArea, hpx, hqx]
      exact mul_le_mul hpA hqA hxA.le (by linarith)
    have hIB : intersectArea a b ≤ boxArea b := by
      rw [intersectArea, boxArea, hpx, hqx]
      exact mul_le_mul hpB hqB hxA.le (by linarith)
    have hselfI : intersectArea a a = boxArea a :=
      intersectArea_self a (by linarith) (by linarith)
    have hU : boxArea a ≤ boxArea a + boxArea b - intersectArea a b := by linarith
    have hden : max (boxArea a) unionFloor ≤
        max (boxArea a + boxArea b - intersectArea a b) unionFloor :=
      max_le_max hU (le_refl _)
    have hdenPos : 0 < max (boxArea a) unionFloor :=
      lt_of_lt_of_le unionFloor_pos (le_max_right _ _)
    rw [jaccard, jaccard, hselfI]
    have h2 : boxArea a + boxArea a - boxArea a = boxArea a := by ring
    rw [h2]
    exact div_le_div₀ (by linarith [hIA, hI0]) hIA hdenPos hden

/-- C8: the suppression IoU is symmetric, and the part of the claim stating
`iou(a,a) = 1` for every non-degenerate box fails: the box
`(0, 0, 1/10000, 1/10000)` has ordered corners and strictly positive area
`10⁻⁸`, yet because the union denominator is floored at `10⁻⁶` its IoU with
itself is `1/100`, not `1`. -/
theorem claimC8_counterexample :
    (c8TinyBox.ymin < c8TinyBox.ymax ∧ c8TinyBox.xmin < c8TinyBox.xmax ∧
      0 < boxArea c8TinyBox) ∧
    jaccard c8TinyBox c8TinyBox = 1 / 100 ∧ (1 : ℚ) / 100 ≠ 1 := by
  refine ⟨by norm_num [c8TinyBox, boxArea], ?_, by norm_num⟩
  norm_num [jaccard, intersectArea, boxArea, c8TinyBox, unionFloor, min_def, max_def]

/-- C8 (amended): the IoU computed by `_jaccard` is symmetric for all boxes,
and `iou(a,a) = 1` for every box with ordered corners whose area reaches
the `1e-6` union floor; boxes with positive area below the floor give
`iou(a,a) = area / 1e-6 < 1`. -/
theorem claimC8_amended :
    (∀ a b : Box, jaccard a b = jaccard b a) ∧
    (∀ a : Box, a.ymin ≤ a.ymax → a.xmin ≤ a.xmax → unionFloor ≤ boxArea a →
      jaccard a a = 1) :=
  ⟨jaccard_comm, jaccard_self_eq_one⟩

/-- Witness for C8 (amended) at concrete boxes. -/
theorem claimC8_witness :
    jaccard ⟨0, 0, 2, 3⟩ ⟨1, 1, 4, 4⟩ = jaccard ⟨1, 1, 4, 4⟩ ⟨0, 0, 2, 3⟩ ∧
    jaccard ⟨0, 0, 1, 1⟩ ⟨0, 0, 1, 1⟩ = 1 :=
  ⟨claimC8_amended.1 _ _,
    claimC8_amended.2 ⟨0, 0, 1, 1⟩ (by norm_num) (by norm_num)
      (by norm_num [boxArea, unionFloor])⟩

theorem pyGet_nonneg {α : Type} (l : List α) (i : ℤ) (h : 0 ≤ i) :
    pyGet l i = l.get? i.toNat := by
  unfold pyGet
  rw [if_pos h]

theorem pyGet_isSome_of_lt {α : Type} (l : List α) (i : ℤ) (h0 : 0 ≤ i)
    (hl : i < (l.length : ℤ)) : (pyGet l i).isSome := by
  rw [pyGet_nonneg l i h0]
  rw [List.get?_eq_getElem?, List.getElem?_eq_getElem (by omega)]
  rfl

/-- Label resolution is total: every branch of the guarded lookup returns a
value. -/
theorem resolveEmotionLabel_isSome (labels : Option (List String)) (labelIdx : ℤ) :
    (resolveEmotionLabel labels labelIdx).isSome := by
  match labels with
  | none => rfl
  | some l =>
      rw [resolveEmotionLabel]
      by_cases h : 0 ≤ labelIdx ∧ labelIdx < (l.length : ℤ)
      · rw [if_pos h]
        simpa using pyGet_isSome_of_lt l labelIdx h.1 h.2
      · rw [if_neg h]
        rfl

/-- C2: the aggregator substitutes the external label name exactly when the
emotion class index is within the supplied list, passes the raw index
through unchanged otherwise (including when no list is supplied), and the
resolution never raises: the guarded lookup is always in bounds, so the
result is always `some`. -/
theorem claimC2_label_resolution (labels : Option (List String)) (labelIdx : ℤ) :
    (∀ l, labels = some l → 0 ≤ labelIdx → labelIdx < (l.length : ℤ) →
      resolveEmotionLabel labels labelIdx = (pyGet l labelIdx).map EmoLabel.known ∧
        (pyGet l labelIdx).isSome) ∧
    (∀ l, labels = some l → (labelIdx < 0 ∨ (l.length : ℤ) ≤ labelIdx) →
      resolveEmotionLabel labels labelIdx = some (EmoLabel.raw labelIdx)) ∧
    (labels = none → resolveEmotionLabel labels labelIdx = some (EmoLabel.raw labelIdx)) ∧
    (resolveEmotionLabel labels labelIdx).isSome := by
  refine ⟨?_, ?_, ?_, ?_⟩
  · rintro l rfl h0 hl
    rw [resolveEmotionLabel, if_pos ⟨h0, hl⟩]
    exact ⟨rfl, pyGet_isSome_of_lt l labelIdx h0 hl⟩
  · rintro l rfl h
    rw [resolveEmotionLabel, if_neg (by omega)]
  · rintro rfl
    rfl
  · exact resolveEmotionLabel_isSome labels labelIdx

/-- Witness for C2 at concrete inputs: index `1` is substituted from a
two-element label list, index `5` is passed through, and resolution with no
list passes the raw index through. -/
theorem claimC2_witness :
    resolveEmotionLabel (some ["calm", "tense"]) 1 =
      some (EmoLabel.known ("tense")) ∧
    resolveEmotionLabel (some ["calm", "tense"]) 5 = some (EmoLabel.raw 5) ∧
    resolveEmotionLabel none (-1) = some (EmoLabel.raw (-1)) := by
  refine ⟨?_, ?_, ?_⟩
  · have h := (claimC2_label_resolution (some ["calm", "tense"]) 1).1
      ["calm", "tense"] rfl (by norm_num) (by norm_num)
    rw [h.1]
    rfl
  · exact (claimC2_label_resolution (some ["calm", "tense"]) 5).2.1
      ["calm", "tense"] rfl (by norm_num)
  · exact (claimC2_label_resolution none (-1)).2.2.1 rfl

/-- C1: the claim is right about the intent but the code loses the sentinel.
Whenever the maximum softmax probability is strictly below `0.5`,
`EmotionPredictor.postprocess` sets `emotion_index = -1` but then evaluates
`self.classes[emotion_index]`, and Python negative indexing wraps `-1`
around to the last class: the returned label is the class name `"neutral"`,
not the sentinel `-1`.  The second conjunct evaluates the full postprocess
on the uniform logits row (max probability `1/7 < 0.5`). -/
theorem claimC1_sentinel_lost :
    (∀ probability : List ℚ,
      probability.getD (argmaxQ probability) 0 < 1 / 2 →
      emotionDecideRow probability =
        some (("neutral"), probability.getD (argmaxQ probability) 0)) ∧
    emotionPostprocess expQ [[0, 0, 0, 0, 0, 0, 0]] =
      some [(("neutral"), 1 / 7,
        [1 / 7, 1 / 7, 1 / 7, 1 / 7, 1 / 7, 1 / 7, 1 / 7])] := by
  have hrow : ∀ probability : List ℚ,
      probability.getD (argmaxQ probability) 0 < 1 / 2 →
      emotionDecideRow probability =
        some (("neutral"), probability.getD (argmaxQ probability) 0) := by
    intro p hconf
    simp only [emotionDecideRow, if_pos hconf]
    rfl
  refine ⟨hrow, ?_⟩
  have hsm : softmaxRow expQ [0, 0, 0, 0, 0, 0, 0] =
      [1 / 7, 1 / 7, 1 / 7, 1 / 7, 1 / 7, 1 / 7, 1 / 7] := by
    norm_num [softmaxRow, listMax, expQ]
  have harg : argmaxQ [(1 : ℚ) / 7, 1 / 7, 1 / 7, 1 / 7, 1 / 7, 1 / 7, 1 / 7] = 0 := by
    norm_num [argmaxQ, argmaxAux]
  have hdec := hrow [1 / 7, 1 / 7, 1 / 7, 1 / 7, 1 / 7, 1 / 7, 1 / 7]
    (by rw [harg]; norm_num)
  rw [harg] at hdec
  simp only [emotionPostprocess, hsm, hdec]
  norm_num

/-- Witness for the general conjunct of C1 at a concrete probability row
with maximum probability `2/5 < 1/2`: the decision rule returns the class
name `"neutral"` even though the argmax is class `3`. -/
theorem claimC1_witness :
    emotionDecideRow [0, 0, 0, 2 / 5, 1 / 5, 1 / 5, 1 / 5] =
      some (("neutral"), 2 / 5) := by
  have harg : argmaxQ [(0 : ℚ), 0, 0, 2 / 5, 1 / 5, 1 / 5, 1 / 5] = 3 := by
    norm_num [argmaxQ, argmaxAux]
  have h := (claimC1_sentinel_lost).1 [0, 0, 0, 2 / 5, 1 / 5, 1 / 5, 1 / 5]
    (by rw [harg]; norm_num)
  rw [harg] at h
  simpa using h

theorem mem_insertDesc (d x : Det) : ∀ l : List Det, x ∈ insertDesc d l ↔ x = d ∨ x ∈ l := by
  intro l
  induction l with
  | nil => simp [insertDesc]
  | cons y ys ih =>
      rw [insertDesc]
      by_cases h : y.score ≤ d.score
      · rw [if_pos h]
        simp [or_comm, or_assoc, or_left_comm]
      · rw [if_neg h]
        simp [ih, or_comm, or_assoc, or_left_comm]

theorem length_insertDesc (d : Det) : ∀ l : List Det,
    (insertDesc d l).length = l.length + 1 := by
  intro l
  induction l with
  | nil => rfl
  | cons y ys ih =>
      rw [insertDesc]
      by_cases h : y.score ≤ d.score
      · rw [if_pos h]
        rfl
      · rw [if_neg h]
        simp [ih]

theorem mem_sortDesc (x : Det) : ∀ l : List Det, x ∈ sortDesc l ↔ x ∈ l := by
  intro l
  induction l with
  | nil => simp [sortDesc]
  | cons y ys ih =>
      rw [sortDesc, mem_insertDesc]
      simp [ih]

theorem length_sortDesc : ∀ l : List Det, (sortDesc l).length = l.length := by
  intro l
  induction l with
  | nil => rfl
  | cons y ys ih =>
      rw [sortDesc, length_insertDesc, ih]
      rfl

theorem sortDesc_head_max : ∀ (l : List Det) (c : Det) (rest : List Det),
    sortDesc l = c :: rest → ∀ x ∈ l, x.score ≤ c.score := by
  intro l
  induction l with
  | nil => intro c rest h; exact absurd h (by simp [sortDesc])
  | cons y ys ih =>
      intro c rest h x hx
      rw [sortDesc] at h
      cases hs : sortDesc ys with
      | nil =>
          rw [hs, insertDesc] at h
          obtain ⟨rfl, -⟩ := List.cons.inj h
          have hys : ys = [] := by
            have := length_sortDesc ys
            rw [hs] at this
            exact List.eq_nil_of_length_eq_zero this.symm
          rcases List.mem_cons.mp hx with rfl | hmem
          · exact le_refl _
          · rw [hys] at hmem; simp at hmem
      | cons c0 r0 =>
          rw [hs, insertDesc] at h
          have hmax := ih c0 r0 hs
          by_cases hcmp : c0.score ≤ y.score
          · rw [if_pos hcmp] at h
            obtain ⟨rfl, -⟩ := List.cons.inj h
            rcases List.mem_cons.mp hx with rfl | hmem
            · exact le_refl _
            · exact le_trans (hmax x hmem) hcmp
          · rw [if_neg hcmp] at h
            obtain ⟨rfl, -⟩ := List.cons.inj h
            rcases List.mem_cons.mp hx with rfl | hmem
            · exact le_of_not_le hcmp
            · exact hmax x hmem

theorem wnmsFuel_nil (thr : ℚ) (fuel : Nat) : wnmsFuel thr fuel [] = some [] := by
  cases fuel <;> rfl

theorem wnmsFuel_cons (thr : ℚ) (fuel : Nat) (c : Det) (rest : List Det) :
    wnmsFuel thr (fuel + 1) (c :: rest) =
      (wnmsFuel thr fuel (keptSet thr c (c :: rest))).map
        fun out => roundOutput thr c (c :: rest) :: out := rfl

theorem keptSet_sublist (thr : ℚ) (c : Det) (rem : List Det) :
    (keptSet thr c rem).Sublist rem := List.filter_sublist rem

/-- A round that removes nothing from the remaining set repeats forever:
whatever the fuel, the loop does not finish. -/
theorem wnmsFuel_none_of_stall (thr : ℚ) (c : Det) (rest : List Det)
    (h : keptSet thr c (c :: rest) = c :: rest) :
    ∀ fuel, wnmsFuel thr fuel (c :: rest) = none := by
  intro fuel
  induction fuel with
  | zero => rfl
  | succ f ih => rw [wnmsFuel_cons, h, ih]; rfl

theorem wnmsFuel_length_le (thr : ℚ) : ∀ (fuel : Nat) (rem out : List Det),
    wnmsFuel thr fuel rem = some out → out.length ≤ rem.length := by
  intro fuel
  induction fuel with
  | zero =>
      intro rem out h
      cases rem with
      | nil => cases h; exact le_refl _
      | cons c rest => exact absurd h (by rw [wnmsFuel]; simp)
  | succ f ih =>
      intro rem out h
      cases rem with
      | nil => cases h; exact le_refl _
      | cons c rest =>
          rw [wnmsFuel_cons] at h
          cases hk : wnmsFuel thr f (keptSet thr c (c :: rest)) with
          | none => rw [hk] at h; exact absurd h (by simp)
          | some tl =>
              rw [hk] at h
              have hout : out = roundOutput thr c (c :: rest) :: tl := by
                cases h; rfl
              by_cases hstall : keptSet thr c (c :: rest) = c :: rest
              · rw [hstall] at hk
                rw [wnmsFuel_none_of_stall thr c rest hstall f] at hk
                exact absurd hk (by simp)
              · have hlt : (keptSet thr c (c :: rest)).length < (c :: rest).length := by
                  rcases lt_or_eq_of_le (keptSet_sublist thr c (c :: rest)).length_le with h1 | h1
                  · exact h1
                  · exact absurd ((keptSet_sublist thr c (c :: rest)).eq_of_length h1) hstall
                have := ih _ tl hk
                have h2 : (keptSet thr c (c :: rest)).length < rest.length + 1 := by
                  simpa using hlt
                rw [hout]
                simp only [List.length_cons]
                omega

/-- Under ordered corners and area at least the union floor for every
remaining detection, every round removes at least its candidate (whose IoU
with itself is `1`), so fuel equal to the remaining count suffices. -/
theorem wnmsFuel_isSome (thr : ℚ) (ht : thr < 1) : ∀ (fuel : Nat) (rem : List Det),
    (∀ d ∈ rem, wfDet d) → rem.length ≤ fuel → (wnmsFuel thr fuel rem).isSome := by
  intro fuel
  induction fuel with
  | zero =>
      intro rem hwf hlen
      have : rem = [] := List.eq_nil_of_length_eq_zero (Nat.le_zero.mp hlen)
      rw [this, wnmsFuel_nil]
      rfl
  | succ f ih =>
      intro rem hwf hlen
      cases rem with
      | nil => rw [wnmsFuel_nil]; rfl
      | cons c rest =>
          have hcwf := hwf c (List.mem_cons_self c rest)
          have hself : jaccard c.box c.box = 1 :=
            jaccard_self_eq_one c.box hcwf.1 hcwf.2.1 hcwf.2.2
          have hkept : keptSet thr c (c :: rest) = keptSet thr c rest := by
            unfold keptSet
            rw [List.filter_cons]
            have : (!decide (thr < jaccard c.box c.box)) = false := by
              rw [hself]
              simpa using ht
            rw [this]
            simp
          have hwf2 : ∀ d ∈ keptSet thr c (c :: rest), wfDet d := fun d hd =>
            hwf d ((keptSet_sublist thr c (c :: rest)).subset hd)
          have hlen2 : (keptSet thr c (c :: rest)).length ≤ f := by
            rw [hkept]
            have := (keptSet_sublist thr c rest).length_le
            simp only [List.length_cons] at hlen
            omega
          have := ih (keptSet thr c (c :: rest)) hwf2 hlen2
          rw [wnmsFuel_cons]
          simpa [Option.isSome_map'] using this

/-- C10: the claim is false as stated.  The detection `c10Det` has inverted
corners, so its signed area `(box[2]-box[0]) * (box[3]-box[1])` is `1`
(well above `1e-6`) while its IoU with itself is `0`: with threshold
`0.3 < 1` the candidate is never moved out of the remaining set and the
suppression loop does not terminate (`none` for fuel equal to the input
length, the claimed bound). -/
theorem claimC10_counterexample :
    unionFloor ≤ boxArea c10Det.box ∧ (3 : ℚ) / 10 < 1 ∧
    wnms [c10Det] (3 / 10) = none := by
  refine ⟨by norm_num [c10Det, Det.box, boxArea, unionFloor], by norm_num, ?_⟩
  have hj : jaccard c10Det.box c10Det.box = 0 := by
    norm_num [jaccard, intersectArea, boxArea, c10Det, Det.box, unionFloor,
      min_def, max_def]
  have hstall : keptSet (3 / 10) c10Det [c10Det] = [c10Det] := by
    unfold keptSet
    rw [List.filter_cons]
    have : (!decide ((3 : ℚ) / 10 < jaccard c10Det.box c10Det.box)) = true := by
      rw [hj]
      norm_num
    rw [this]
    simp
  have h := wnmsFuel_none_of_stall (3 / 10) c10Det [] hstall 1
  unfold wnms
  simpa [sortDesc, insertDesc] using h

/-- C10 (amended): the termination argument is sound once every box
additionally has ordered corners (`ymin ≤ ymax`, `xmin ≤ xmax`): then each
candidate's IoU with itself is `1 > thr`, the candidate leaves the
remaining set every round, and the loop finishes within input-length
rounds. -/
theorem claimC10_amended (dets : List Det) (thr : ℚ)
    (hwf : ∀ d ∈ dets, wfDet d) (ht : thr < 1) : (wnms dets thr).isSome := by
  unfold wnms
  apply wnmsFuel_isSome thr ht
  · intro d hd
    exact hwf d ((mem_sortDesc d dets).mp hd)
  · rw [length_sortDesc]

/-- Witness for C10 (amended) at a concrete one-detection input. -/
theorem claimC10_witness :
    (∀ d ∈ [c10Wf], wfDet d) ∧ (1 : ℚ) / 2 < 1 ∧ (wnms [c10Wf] (1 / 2)).isSome := by
  have hwf : ∀ d ∈ [c10Wf], wfDet d := by
    intro d hd
    rcases List.mem_singleton.mp hd with rfl
    norm_num [wfDet, c10Wf, Det.box, boxArea, unionFloor]
  exact ⟨hwf, by norm_num, claimC10_amended [c10Wf] (1 / 2) hwf (by norm_num)⟩

/-- If the candidate is not above the threshold against itself, no
remaining detection is, since `iou(c, d) ≤ iou(c, c)`. -/
theorem overlapSet_eq_nil (thr : ℚ) (c : Det) (rem : List Det)
    (h : ¬ thr < jaccard c.box c.box) : overlapSet thr c rem = [] := by
  apply List.filter_eq_nil_iff.mpr
  intro d hd
  simp only [decide_eq_true_eq]
  intro hlt
  exact h (lt_of_lt_of_le hlt (jaccard_le_jaccard_self c.box d.box))

/-- C5: whenever weighted suppression finishes, it returns at most as many
detections as it was given, and on nonempty input the first emitted
detection is the globally highest-scoring input detection, either unchanged
or merged as the weighted average of a set of input detections that
contains it. -/
theorem claimC5_suppression_safety (dets : List Det) (thr : ℚ) (out : List Det)
    (h : wnms dets thr = some out) :
    out.length ≤ dets.length ∧
    (dets ≠ [] → ∃ top hd tl, top ∈ dets ∧ (∀ x ∈ dets, x.score ≤ top.score) ∧
      out = hd :: tl ∧
      (hd = top ∨ ∃ S : List Det, (∀ x ∈ S, x ∈ dets) ∧ top ∈ S ∧ hd = weightedAvg S)) := by
  unfold wnms at h
  constructor
  · have := wnmsFuel_length_le thr dets.length (sortDesc dets) out h
    rw [length_sortDesc] at this
    exact this
  · intro hne
    cases hs : sortDesc dets with
    | nil =>
        exfalso
        have := length_sortDesc dets
        rw [hs] at this
        exact hne (List.eq_nil_of_length_eq_zero this.symm)
    | cons c rest =>
        rw [hs] at h
        have hlen : dets.length = rest.length + 1 := by
          rw [← length_sortDesc dets, hs]
          rfl
        rw [hlen, wnmsFuel_cons] at h
        cases hk : wnmsFuel thr rest.length (keptSet thr c (c :: rest)) with
        | none => rw [hk] at h; exact absurd h (by simp)
        | some tl =>
            rw [hk] at h
            have hout : out = roundOutput thr c (c :: rest) :: tl := by
              cases h; rfl
            have hcmem : c ∈ dets := (mem_sortDesc c dets).mp (hs ▸ List.mem_cons_self c rest)
            refine ⟨c, roundOutput thr c (c :: rest), tl, hcmem,
              fun x hx => sortDesc_head_max dets c rest hs x hx, hout, ?_⟩
            unfold roundOutput
            by_cases hov : 1 < (overlapSet thr c (c :: rest)).length
            · rw [if_pos hov]
              right
              refine ⟨overlapSet thr c (c :: rest), ?_, ?_, rfl⟩
              · intro x hx
                have hx2 : x ∈ c :: rest := List.mem_of_mem_filter hx
                exact (mem_sortDesc x dets).mp (hs ▸ hx2)
              · by_contra hc
                have hcs : ¬ thr < jaccard c.box c.box := by
                  intro hlt
                  exact hc (List.mem_filter.mpr
                    ⟨List.mem_cons_self c rest, by simpa using hlt⟩)
                rw [overlapSet_eq_nil thr c (c :: rest) hcs] at hov
                simp at hov
            · rw [if_neg hov]
              left
              rfl

/-- Witness for C5 at a concrete run: a single well-formed detection is
returned unchanged. -/
theorem claimC5_witness :
    wnms [c5Det] (3 / 10) = some [c5Det] ∧
    ([c5Det] : List Det).length ≤ ([c5Det] : List Det).length ∧
    (([c5Det] : List Det) ≠ [] → ∃ top hd tl, top ∈ [c5Det] ∧
      (∀ x ∈ [c5Det], x.score ≤ top.score) ∧ ([c5Det] : List Det) = hd :: tl ∧
      (hd = top ∨ ∃ S : List Det, (∀ x ∈ S, x ∈ [c5Det]) ∧ top ∈ S ∧
        hd = weightedAvg S)) := by
  have hj : jaccard c5Det.box c5Det.box = 1 := by
    norm_num [jaccard, intersectArea, boxArea, c5Det, Det.box, unionFloor,
      min_def, max_def]
  have hkept : keptSet (3 / 10) c5Det [c5Det] = [] := by
    unfold keptSet
    rw [List.filter_cons]
    have : (!decide ((3 : ℚ) / 10 < jaccard c5Det.box c5Det.box)) = false := by
      rw [hj]
      norm_num
    rw [this]
    simp
  have hover : overlapSet (3 / 10) c5Det [c5Det] = [c5Det] := by
    unfold overlapSet
    rw [List.filter_cons]
    have : decide ((3 : ℚ) / 10 < jaccard c5Det.box c5Det.box) = true := by
      rw [hj]
      norm_num
    rw [this]
    simp
  have he : wnms [c5Det] (3 / 10) = some [c5Det] := by
    unfold wnms
    show wnmsFuel (3 / 10) 1 (sortDesc [c5Det]) = some [c5Det]
    have hsort : sortDesc [c5Det] = [c5Det] := rfl
    rw [hsort, wnmsFuel_cons, hkept, wnmsFuel_nil]
    have hr : roundOutput (3 / 10) c5Det [c5Det] = c5Det := by
      unfold roundOutput
      rw [hover]
      simp
    rw [hr]
    rfl
  have h := claimC5_suppression_safety [c5Det] (3 / 10) [c5Det] he
  exact ⟨he, h.1, h.2⟩

/-- C6: in each suppression round the emitted detection is the weighted
merge of the overlapping set when that set has more than one member (its 16
coordinates the score-weighted average, its score the score sum divided by
the member count), and the candidate unchanged when the set has exactly one
member; in particular two detections with boxes at IoU `1/2` (above the
default threshold `0.3`) merge into a single weighted detection whose score
is the sum of the two scores divided by two. -/
theorem claimC6_weighted_merge :
    (∀ (thr : ℚ) (c : Det) (rest : List Det) (fuel : Nat) (out : List Det),
      wnmsFuel thr (fuel + 1) (c :: rest) = some out →
      (1 < (overlapSet thr c (c :: rest)).length →
        out.head? = some
          ⟨(List.range 16).map fun j =>
              ((overlapSet thr c (c :: rest)).map fun d => d.coords.getD j 0 * d.score).sum /
                totalScore (overlapSet thr c (c :: rest)),
            totalScore (overlapSet thr c (c :: rest)) /
              ((overlapSet thr c (c :: rest)).length : ℚ)⟩) ∧
      ((overlapSet thr c (c :: rest)).length = 1 → out.head? = some c)) ∧
    (wnms [c6DetA, c6DetB] (3 / 10) = some [c6Merged] ∧
      jaccard c6DetA.box c6DetB.box = 1 / 2 ∧
      c6Merged.score = (c6DetA.score + c6DetB.score) / 2) := by
  have hgen : ∀ (thr : ℚ) (c : Det) (rest : List Det) (fuel : Nat) (out : List Det),
      wnmsFuel thr (fuel + 1) (c :: rest) = some out →
      (1 < (overlapSet thr c (c :: rest)).length →
        out.head? = some
          ⟨(List.range 16).map fun j =>
              ((overlapSet thr c (c :: rest)).map fun d => d.coords.getD j 0 * d.score).sum /
                totalScore (overlapSet thr c (c :: rest)),
            totalScore (overlapSet thr c (c :: rest)) /
              ((overlapSet thr c (c :: rest)).length : ℚ)⟩) ∧
      ((overlapSet thr c (c :: rest)).length = 1 → out.head? = some c) := by
    intro thr c rest fuel out h
    rw [wnmsFuel_cons] at h
    cases hk : wnmsFuel thr fuel (keptSet thr c (c :: rest)) with
    | none => rw [hk] at h; exact absurd h (by simp)
    | some tl =>
        rw [hk] at h
        have hout : out = roundOutput thr c (c :: rest) :: tl := by
          cases h; rfl
        constructor
        · intro hov
          rw [hout]
          simp only [List.head?_cons]
          unfold roundOutput
          rw [if_pos hov]
          rfl
        · intro hone
          rw [hout]
          simp only [List.head?_cons]
          unfold roundOutput
          rw [if_neg (by omega)]
  refine ⟨hgen, ?_, ?_, by norm_num [c6Merged, c6DetA, c6DetB]⟩
  · have hAA : jaccard c6DetA.box c6DetA.box = 1 := by
      norm_num [jaccard, intersectArea, boxArea, c6DetA, Det.box, unionFloor,
        min_def, max_def]
    have hAB : jaccard c6DetA.box c6DetB.box = 1 / 2 := by
      norm_num [jaccard, intersectArea, boxArea, c6DetA, c6DetB, Det.box,
        unionFloor, min_def, max_def]
    have hkept : keptSet (3 / 10) c6DetA [c6DetA, c6DetB] = [] := by
      unfold keptSet
      rw [List.filter_cons, List.filter_cons]
      have h1 : (!decide ((3 : ℚ) / 10 < jaccard c6DetA.box c6DetA.box)) = false := by
        rw [hAA]; norm_num
      have h2 : (!decide ((3 : ℚ) / 10 < jaccard c6DetA.box c6DetB.box)) = false := by
        rw [hAB]; norm_num
      rw [h1, h2]
      simp
    have hover : overlapSet (3 / 10) c6DetA [c6DetA, c6DetB] = [c6DetA, c6DetB] := by
      unfold overlapSet
      rw [List.filter_cons, List.filter_cons]
      have h1 : decide ((3 : ℚ) / 10 < jaccard c6DetA.box c6DetA.box) = true := by
        rw [hAA]; norm_num
      have h2 : decide ((3 : ℚ) / 10 < jaccard c6DetA.box c6DetB.box) = true := by
        rw [hAB]; norm_num
      rw [h1, h2]
      simp
    have hsort : sortDesc [c6DetA, c6DetB] = [c6DetA, c6DetB] := by
      show insertDesc c6DetA (insertDesc c6DetB []) = [c6DetA, c6DetB]
      rw [insertDesc, insertDesc]
      rw [if_pos (by norm_num [c6DetA, c6DetB])]
    have hmerge : roundOutput (3 / 10) c6DetA [c6DetA, c6DetB] = c6Merged := by
      unfold roundOutput
      rw [hover]
      simp only [List.length_cons, List.length_nil]
      rw [if_pos (by norm_num)]
      unfold weightedAvg totalScore
      simp only [List.map_cons, List.map_nil, List.sum_cons, List.sum_nil]
      norm_num [c6DetA, c6DetB, c6Merged, List.range_succ]
    unfold wnms
    show wnmsFuel (3 / 10) 2 (sortDesc [c6DetA, c6DetB]) = some [c6Merged]
    rw [hsort, wnmsFuel_cons, hkept, wnmsFuel_nil, hmerge]
    rfl
  · exact (by norm_num [jaccard, intersectArea, boxArea, c6DetA, c6DetB, Det.box,
      unionFloor, min_def, max_def] :
      jaccard c6DetA.box c6DetB.box = 1 / 2)

/-- Witness for the per-round conjunct of C6 at a concrete one-detection
round with a single-member overlapping set: the candidate is emitted
unchanged. -/
theorem claimC6_witness :
    wnmsFuel (3 / 10) 1 [c6Single] = some [c6Single] ∧
    (overlapSet (3 / 10) c6Single [c6Single]).length = 1 ∧
    ([c6Single] : List Det).head? = some c6Single := by
  have hj : jaccard c6Single.box c6Single.box = 1 := by
    norm_num [jaccard, intersectArea, boxArea, c6Single, Det.box, unionFloor,
      min_def, max_def]
  have hkept : keptSet (3 / 10) c6Single [c6Single] = [] := by
    unfold keptSet
    rw [List.filter_cons]
    have : (!decide ((3 : ℚ) / 10 < jaccard c6Single.box c6Single.box)) = false := by
      rw [hj]; norm_num
    rw [this]
    simp
  have hover : overlapSet (3 / 10) c6Single [c6Single] = [c6Single] := by
    unfold overlapSet
    rw [List.filter_cons]
    have : decide ((3 : ℚ) / 10 < jaccard c6Single.box c6Single.box) = true := by
      rw [hj]; norm_num
    rw [this]
    simp
  have he : wnmsFuel (3 / 10) 1 [c6Single] = some [c6Single] := by
    rw [show (1 : Nat) = 0 + 1 from rfl, wnmsFuel_cons, hkept, wnmsFuel_nil]
    have hr : roundOutput (3 / 10) c6Single [c6Single] = c6Single := by
      unfold roundOutput
      rw [hover]
      simp
    rw [hr]
    rfl
  have hlen : (overlapSet (3 / 10) c6Single [c6Single]).length = 1 := by
    rw [hover]
    rfl
  exact ⟨he, hlen,
    (claimC6_weighted_merge.1 (3 / 10) c6Single [] 0 [c6Single] he).2 hlen⟩

theorem decodeBoxes_get (s : Scales) : ∀ (anchors : List Anchor)
    (rawBoxes : List (List ℚ)) (i : Nat) (a : Anchor) (raw : List ℚ),
    anchors.get? i = some a → rawBoxes.get? i = some raw →
    (decodeBoxes s anchors rawBoxes).get? i = some (decodeRow s a raw) := by
  intro anchors
  induction anchors with
  | nil => intro rawBoxes i a raw ha; exact absurd ha (by simp)
  | cons a0 as ih =>
      intro rawBoxes i a raw ha hr
      cases rawBoxes with
      | nil => exact absurd hr (by simp)
      | cons r0 rs =>
          cases i with
          | zero =>
              obtain rfl : a0 = a := by simpa using ha
              obtain rfl : r0 = raw := by simpa using hr
              rfl
          | succ j =>
              simp only [List.get?_cons_succ] at ha hr
              exact ih rs j a raw ha hr

/-- C4: the claim is false as stated.  On the anchor `(1/2, 1/2, 1/2, 1/2)`
and a raw row whose first offset is `128`, the source decoder
(`raw / scale * anchor_size + anchor_center`) puts the box `xmin` at `1`,
while the claimed formula (`raw / scale + anchor_center`, without the
anchor-size factor) puts it at `3/2`. -/
theorem claimC4_counterexample :
    (decodeRow frontScales ⟨1 / 2, 1 / 2, 1 / 2, 1 / 2⟩ c4Row).getD 1 0 = 1 ∧
    (decodeRowClaimed frontScales ⟨1 / 2, 1 / 2, 1 / 2, 1 / 2⟩ c4Row).getD 1 0 = 3 / 2 ∧
    decodeRow frontScales ⟨1 / 2, 1 / 2, 1 / 2, 1 / 2⟩ c4Row ≠
      decodeRowClaimed frontScales ⟨1 / 2, 1 / 2, 1 / 2, 1 / 2⟩ c4Row := by
  have h1 : (decodeRow frontScales ⟨1 / 2, 1 / 2, 1 / 2, 1 / 2⟩ c4Row).getD 1 0 = 1 := by
    norm_num [decodeRow, frontScales, c4Row, List.range_succ]
  have h2 : (decodeRowClaimed frontScales ⟨1 / 2, 1 / 2, 1 / 2, 1 / 2⟩ c4Row).getD 1 0
      = 3 / 2 := by
    norm_num [decodeRowClaimed, frontScales, c4Row, List.range_succ]
  refine ⟨h1, h2, fun heq => ?_⟩
  rw [heq, h2] at h1
  norm_num at h1

/-- C4 (amended): for every anchor index `i`, the decoder computes the box
center as `raw[i,0:2] / scale * anchor[i,2:4] + anchor[i,0:2]` (the claim
omitted the anchor-size factor), the size as
`raw[i,2:4] / scale * anchor[i,2:4]`, stores the corners `center ± size/2`
in `(ymin, xmin, ymax, xmax)` order, and decodes each of the six keypoint
pairs starting at column 4 with the same formula as the center. -/
theorem claimC4_amended (s : Scales) (a : Anchor) (raw : List ℚ)
    (anchors : List Anchor) (rawBoxes : List (List ℚ)) (i : Nat)
    (ha : anchors.get? i = some a) (hr : rawBoxes.get? i = some raw) :
    (decodeBoxes s anchors rawBoxes).get? i = some (decodeRow s a raw) ∧
    (decodeRow s a raw).length = 16 ∧
    (decodeRow s a raw).getD 0 0 =
      (raw.getD 1 0 / s.ys * a.h + a.cy) - (raw.getD 3 0 / s.hs * a.h) / 2 ∧
    (decodeRow s a raw).getD 1 0 =
      (raw.getD 0 0 / s.xs * a.w + a.cx) - (raw.getD 2 0 / s.ws * a.w) / 2 ∧
    (decodeRow s a raw).getD 2 0 =
      (raw.getD 1 0 / s.ys * a.h + a.cy) + (raw.getD 3 0 / s.hs * a.h) / 2 ∧
    (decodeRow s a raw).getD 3 0 =
      (raw.getD 0 0 / s.xs * a.w + a.cx) + (raw.getD 2 0 / s.ws * a.w) / 2 ∧
    (∀ k, k < 6 →
      (decodeRow s a raw).getD (4 + 2 * k) 0 =
        raw.getD (4 + 2 * k) 0 / s.xs * a.w + a.cx ∧
      (decodeRow s a raw).getD (4 + 2 * k + 1) 0 =
        raw.getD (4 + 2 * k + 1) 0 / s.ys * a.h + a.cy) := by
  refine ⟨decodeBoxes_get s anchors rawBoxes i a raw ha hr, ?_, ?_, ?_, ?_, ?_, ?_⟩
  · simp [decodeRow, List.range_succ]
  · simp [decodeRow, List.range_succ]
  · simp [decodeRow, List.range_succ]
  · simp [decodeRow, List.range_succ]
  · simp [decodeRow, List.range_succ]
  · intro k hk
    interval_cases k <;> constructor <;> simp [decodeRow, List.range_succ]

/-- Witness for C4 (amended) at a concrete anchor table and raw row. -/
theorem claimC4_witness :
    ([⟨1 / 2, 1 / 2, 1 / 2, 1 / 2⟩] : List Anchor).get? 0 =
      some ⟨1 / 2, 1 / 2, 1 / 2, 1 / 2⟩ ∧
    ([c4Row] : List (List ℚ)).get? 0 = some c4Row ∧
    (decodeBoxes frontScales [⟨1 / 2, 1 / 2, 1 / 2, 1 / 2⟩] [c4Row]).get? 0 =
      some (decodeRow frontScales ⟨1 / 2, 1 / 2, 1 / 2, 1 / 2⟩ c4Row) ∧
    (decodeRow frontScales ⟨1 / 2, 1 / 2, 1 / 2, 1 / 2⟩ c4Row).length = 16 :=
  ⟨rfl, rfl,
    (claimC4_amended frontScales ⟨1 / 2, 1 / 2, 1 / 2, 1 / 2⟩ c4Row
      [⟨1 / 2, 1 / 2, 1 / 2, 1 / 2⟩] [c4Row] 0 rfl rfl).1,
    (claimC4_amended frontScales ⟨1 / 2, 1 / 2, 1 / 2, 1 / 2⟩ c4Row
      [⟨1 / 2, 1 / 2, 1 / 2, 1 / 2⟩] [c4Row] 0 rfl rfl).2.1⟩

/-- One aggregation step never raises and fills exactly the fields whose
classifier produced a result at this index. -/
theorem aggregateOne_spec (ga : List (String × String))
    (em : List (ℤ × ℚ × List ℚ)) (labels : Option (List String)) (idx : Nat)
    (det : PyDetection) :
    ∃ r, aggregateOne ga em labels idx det = some r ∧
      r.bbox = det.box ∧ r.score = det.score ∧ r.keypoints = det.keypoints ∧
      r.gender = (ga.get? idx).map Prod.fst ∧
      r.ageBucket = (ga.get? idx).map Prod.snd ∧
      (em.get? idx = none → r.emotionLabel = none ∧ r.emotionConfidence = none ∧
        r.emotionDistribution = none) := by
  cases hem : em.get? idx with
  | none =>
      refine ⟨⟨det.box, det.score, det.keypoints, (ga.get? idx).map Prod.fst,
        (ga.get? idx).map Prod.snd, none, none, none⟩, ?_, rfl, rfl, rfl, rfl, rfl, ?_⟩
      · unfold aggregateOne
        simp only [hem]
      · intro
        exact ⟨rfl, rfl, rfl⟩
  | some e =>
      have hsome := resolveEmotionLabel_isSome labels e.1
      cases hres : resolveEmotionLabel labels e.1 with
      | none => rw [hres] at hsome; exact absurd hsome (by simp)
      | some el =>
          refine ⟨⟨det.box, det.score, det.keypoints, (ga.get? idx).map Prod.fst,
            (ga.get? idx).map Prod.snd, some el, some e.2.1, some e.2.2⟩,
            ?_, rfl, rfl, rfl, rfl, rfl, ?_⟩
          · unfold aggregateOne
            simp only [hem, hres, Option.map_some']
          · intro hnone
            exact absurd hnone (by simp)

/-- The aggregation loop from any start index returns one record per
detection, in order, each produced by `aggregateOne` at its running index. -/
theorem aggregateFrom_spec (ga : List (String × String))
    (em : List (ℤ × ℚ × List ℚ)) (labels : Option (List String)) :
    ∀ (dets : List PyDetection) (start : Nat),
    ∃ out, aggregateFrom ga em labels start dets = some out ∧
      out.length = dets.length ∧
      ∀ i (hi : i < dets.length) (ho : i < out.length),
        aggregateOne ga em labels (start + i) (dets.get ⟨i, hi⟩) =
          some (out.get ⟨i, ho⟩) := by
  intro dets
  induction dets with
  | nil =>
      intro start
      exact ⟨[], rfl, rfl, fun i hi => absurd hi (by simp)⟩
  | cons det rest ih =>
      intro start
      obtain ⟨r, hr, -⟩ := aggregateOne_spec ga em labels start det
      obtain ⟨out2, hout2, hlen2, hget2⟩ := ih (start + 1)
      refine ⟨r :: out2, ?_, by simp [hlen2], ?_⟩
      · rw [aggregateFrom, hr, hout2]
        rfl
      · intro i hi ho
        cases i with
        | zero => simpa using hr
        | succ j =>
            have hj : j < rest.length := by simpa using hi
            have hjo : j < out2.length := by simpa using ho
            have := hget2 j hj hjo
            simpa [Nat.add_assoc, Nat.add_comm, Nat.add_left_comm] using this

/-- C9: the aggregator returns exactly one record per detection, in
detection order, without raising; a detection index beyond a classifier
result list leaves the corresponding attribute fields absent (`none`).  In
particular, with one fewer gender/age result than detections, the last
record has `gender` and `ageBucket` absent while the first is filled. -/
theorem claimC9_aggregation (dets : List PyDetection) (ga : List (String × String))
    (em : List (ℤ × ℚ × List ℚ)) (labels : Option (List String)) :
    (∃ out, aggregate dets ga em labels = some out ∧ out.length = dets.length ∧
      ∀ i (hi : i < dets.length) (ho : i < out.length),
        (out.get ⟨i, ho⟩).bbox = (dets.get ⟨i, hi⟩).box ∧
        (out.get ⟨i, ho⟩).score = (dets.get ⟨i, hi⟩).score ∧
        (out.get ⟨i, ho⟩).keypoints = (dets.get ⟨i, hi⟩).keypoints ∧
        (out.get ⟨i, ho⟩).gender = (ga.get? i).map Prod.fst ∧
        (out.get ⟨i, ho⟩).ageBucket = (ga.get? i).map Prod.snd ∧
        (ga.length ≤ i → (out.get ⟨i, ho⟩).gender = none ∧
          (out.get ⟨i, ho⟩).ageBucket = none) ∧
        (em.length ≤ i → (out.get ⟨i, ho⟩).emotionLabel = none ∧
          (out.get ⟨i, ho⟩).emotionConfidence = none ∧
          (out.get ⟨i, ho⟩).emotionDistribution = none)) ∧
    (∃ r0 r1, aggregate [c9Det0, c9Det1] [("female", ("19-36"))] [] none =
        some [r0, r1] ∧
      r0.gender = some ("female") ∧ r0.ageBucket = some ("19-36") ∧
      r1.gender = none ∧ r1.ageBucket = none) := by
  constructor
  · obtain ⟨out, hout, hlen, hget⟩ := aggregateFrom_spec ga em labels dets 0
    refine ⟨out, hout, hlen, ?_⟩
    intro i hi ho
    have hone := hget i hi ho
    obtain ⟨r, hr, hb, hs, hkp, hg, ha, hemn⟩ := aggregateOne_spec ga em labels (0 + i)
      (dets.get ⟨i, hi⟩)
    have heq : out.get ⟨i, ho⟩ = r := Option.some.inj (hone.symm.trans hr)
    subst heq
    have hzi : 0 + i = i := Nat.zero_add i
    rw [hzi] at hg ha hemn
    refine ⟨hb, hs, hkp, hg, ha, ?_, ?_⟩
    · intro hga
      have : ga.get? i = none := List.get?_eq_none.mpr hga
      rw [this] at hg ha
      exact ⟨hg, ha⟩
    · intro hem
      exact hemn (List.get?_eq_none.mpr hem)
  · exact ⟨_, _, rfl, rfl, rfl, rfl, rfl⟩

/-- Witness for C9 at concrete inputs: two detections, one gender/age
result, no emotion results, no label list. -/
theorem claimC9_witness :
    ∃ out, aggregate [c9Det0, c9Det1] [("female", ("19-36"))] [] none = some out ∧
      out.length = 2 := by
  obtain ⟨⟨out, hout, hlen, -⟩, -⟩ :=
    claimC9_aggregation [c9Det0, c9Det1] [("female", ("19-36"))] [] none
  exact ⟨out, hout, hlen⟩

/-- C7: a face is classified highly tilted iff both ear-to-eye gaps are
nonzero and one gap exceeds twice the other, and a tilted face keeps the
raw clamped detection box with no tightening; in particular gaps `10` and
`30` are classified tilted and the box is left untightened. -/
theorem claimC7_tilt :
    (∀ (width height : ℤ) (d : Det),
      (highlyTilted (kpsOf width height d) ↔
        leftGap (kpsOf width height d) ≠ 0 ∧ rightGap (kpsOf width height d) ≠ 0 ∧
          (2 * rightGap (kpsOf width height d) < leftGap (kpsOf width height d) ∨
            2 * leftGap (kpsOf width height d) < rightGap (kpsOf width height d))) ∧
      (highlyTilted (kpsOf width height d) →
        refineDetection width height d =
          ⟨rawPxBox width height d, d.score, kpsOf width height d⟩)) ∧
    (leftGap (kpsOf 200 200 c7Det) = 10 ∧ rightGap (kpsOf 200 200 c7Det) = 30 ∧
      highlyTilted (kpsOf 200 200 c7Det) ∧
      (refineDetection 200 200 c7Det).box = rawPxBox 200 200 c7Det ∧
      rawPxBox 200 200 c7Det = ⟨20, 20, 90, 80⟩) := by
  have hgen : ∀ (width height : ℤ) (d : Det),
      (highlyTilted (kpsOf width height d) ↔
        leftGap (kpsOf width height d) ≠ 0 ∧ rightGap (kpsOf width height d) ≠ 0 ∧
          (2 * rightGap (kpsOf width height d) < leftGap (kpsOf width height d) ∨
            2 * leftGap (kpsOf width height d) < rightGap (kpsOf width height d))) ∧
      (highlyTilted (kpsOf width height d) →
        refineDetection width height d =
          ⟨rawPxBox width height d, d.score, kpsOf width height d⟩) := by
    intro width height d
    have hl : 0 ≤ leftGap (kpsOf width height d) := abs_nonneg _
    have hr : 0 ≤ rightGap (kpsOf width height d) := abs_nonneg _
    constructor
    · unfold highlyTilted
      constructor
      · rintro ⟨h1, h2, h3⟩
        exact ⟨by omega, by omega, h3⟩
      · rintro ⟨h1, h2, h3⟩
        exact ⟨by omega, by omega, h3⟩
    · intro ht
      simp only [refineDetection]
      rw [if_pos ht]
  have hkps : kpsOf 200 200 c7Det =
      [(50, 50), (100, 50), (75, 50), (75, 50), (60, 50), (130, 50)] := by
    norm_num [kpsOf, c7Det, pxClamp, List.range_succ, min_def, max_def]
  have hlg : leftGap (kpsOf 200 200 c7Det) = 10 := by
    rw [hkps]
    norm_num [leftGap]
  have hrg : rightGap (kpsOf 200 200 c7Det) = 30 := by
    rw [hkps]
    norm_num [rightGap]
  have htilt : highlyTilted (kpsOf 200 200 c7Det) := by
    unfold highlyTilted
    rw [hlg, hrg]
    norm_num
  refine ⟨hgen, hlg, hrg, htilt, ?_, ?_⟩
  · rw [(hgen 200 200 c7Det).2 htilt]
  · norm_num [rawPxBox, c7Det, pxClamp, min_def, max_def]

/-- Witness for C7 at the concrete tilted scenario detection. -/
theorem claimC7_witness :
    highlyTilted (kpsOf 200 200 c7Det) ∧
    refineDetection 200 200 c7Det =
      ⟨rawPxBox 200 200 c7Det, c7Det.score, kpsOf 200 200 c7Det⟩ := by
  have htilt : highlyTilted (kpsOf 200 200 c7Det) := claimC7_tilt.2.2.2.1
  exact ⟨htilt, (claimC7_tilt.1 200 200 c7Det).2 htilt⟩

theorem pxClamp_nonneg (v : ℚ) (dim : ℤ) (h : 1 ≤ dim) : 0 ≤ pxClamp v dim := by
  unfold pxClamp
  apply Int.floor_nonneg.mpr
  apply le_min (le_max_right v 0)
  have : (1 : ℚ) ≤ (dim : ℚ) := by exact_mod_cast h
  linarith

theorem pxClamp_le (v : ℚ) (dim : ℤ) : pxClamp v dim ≤ dim - 1 := by
  unfold pxClamp
  have h1 : min (max v 0) ((dim : ℚ) - 1) ≤ (dim : ℚ) - 1 := min_le_right _ _
  have h2 : ((dim : ℚ) - 1) = ((dim - 1 : ℤ) : ℚ) := by push_cast; ring
  calc ⌊min (max v 0) ((dim : ℚ) - 1)⌋ ≤ ⌊((dim - 1 : ℤ) : ℚ)⌋ :=
        Int.floor_le_floor (h2 ▸ h1)
    _ = dim - 1 := Int.floor_intCast _

theorem pxClamp_mono (dim : ℤ) {v w : ℚ} (hvw : v ≤ w) :
    pxClamp v dim ≤ pxClamp w dim := by
  unfold pxClamp
  exact Int.floor_le_floor (min_le_min (max_le_max hvw (le_refl 0)) (le_refl _))

theorem tightenFinalX_bounds (width a b : ℤ) (hw : 2 ≤ width) :
    0 ≤ (tightenFinalX width a b).1 ∧
    (tightenFinalX width a b).1 < (tightenFinalX width a b).2 ∧
    (tightenFinalX width a b).2 ≤ width - 1 := by
  unfold tightenFinalX
  refine ⟨?_, ?_, ?_⟩ <;> simp only [] <;> omega

theorem kpsOf_bounds (width height : ℤ) (d : Det) (hw : 1 ≤ width) (hh : 1 ≤ height) :
    ∀ p ∈ kpsOf width height d,
      0 ≤ p.1 ∧ p.1 ≤ width - 1 ∧ 0 ≤ p.2 ∧ p.2 ≤ height - 1 := by
  intro p hp
  unfold kpsOf at hp
  obtain ⟨k, -, rfl⟩ := List.mem_map.mp hp
  exact ⟨pxClamp_nonneg _ _ hw, pxClamp_le _ _, pxClamp_nonneg _ _ hh, pxClamp_le _ _⟩

/-- C3 (amended): for every suppressed detection whose normalized box is
ordered (`ymin ≤ ymax` and `xmin ≤ xmax`, which holds for every detection a
terminating suppression can emit) and every frame with `width ≥ 2` and
`height ≥ 1`, the final box satisfies `xmin ≤ xmax` and `ymin ≤ ymax`
(equality is possible when clamping collapses a side, so the claimed strict
inequalities fail), and every box and keypoint coordinate lies within
`[0, dim-1]` for its axis. -/
theorem claimC3_amended (width height : ℤ) (d : Det)
    (hy : d.coords.getD 0 0 ≤ d.coords.getD 2 0)
    (hx : d.coords.getD 1 0 ≤ d.coords.getD 3 0)
    (hw : 2 ≤ width) (hh : 1 ≤ height) :
    0 ≤ (refineDetection width height d).box.xmin ∧
    (refineDetection width height d).box.xmin ≤ (refineDetection width height d).box.xmax ∧
    (refineDetection width height d).box.xmax ≤ width - 1 ∧
    0 ≤ (refineDetection width height d).box.ymin ∧
    (refineDetection width height d).box.ymin ≤ (refineDetection width height d).box.ymax ∧
    (refineDetection width height d).box.ymax ≤ height - 1 ∧
    (∀ p ∈ (refineDetection width height d).keypoints,
      0 ≤ p.1 ∧ p.1 ≤ width - 1 ∧ 0 ≤ p.2 ∧ p.2 ≤ height - 1) := by
  have hw1 : (1 : ℤ) ≤ width := by omega
  have hymono : pxClamp (d.coords.getD 0 0 * (height : ℚ)) height ≤
      pxClamp (d.coords.getD 2 0 * (height : ℚ)) height := by
    apply pxClamp_mono
    apply mul_le_mul_of_nonneg_right hy
    exact_mod_cast Int.le_of_lt (by omega : (0 : ℤ) < height)
  have hxmono : pxClamp (d.coords.getD 1 0 * (width : ℚ)) width ≤
      pxClamp (d.coords.getD 3 0 * (width : ℚ)) width := by
    apply pxClamp_mono
    apply mul_le_mul_of_nonneg_right hx
    exact_mod_cast Int.le_of_lt (by omega : (0 : ℤ) < width)
  unfold refineDetection
  by_cases ht : highlyTilted (kpsOf width height d)
  · rw [if_pos ht]
    simp only [rawPxBox]
    exact ⟨pxClamp_nonneg _ _ hw1, hxmono, pxClamp_le _ _, pxClamp_nonneg _ _ hh,
      hymono, pxClamp_le _ _, kpsOf_bounds width height d hw1 hh⟩
  · rw [if_neg ht]
    simp only [rawPxBox, tightenX]
    obtain ⟨h1, h2, h3⟩ := tightenFinalX_bounds width
      (pyRound (tightenSpanX width (kpsOf width height d)).1)
      (pyRound (tightenSpanX width (kpsOf width height d)).2) hw
    exact ⟨h1, h2.le, h3, pxClamp_nonneg _ _ hh, hymono, pxClamp_le _ _,
      kpsOf_bounds width height d hw1 hh⟩

/-- Witness for C3 (amended) at a concrete ordered detection on a
`100 × 100` frame. -/
theorem claimC3_amended_witness :
    (c3Wit.coords.getD 0 0 ≤ c3Wit.coords.getD 2 0 ∧
      c3Wit.coords.getD 1 0 ≤ c3Wit.coords.getD 3 0) ∧
    0 ≤ (refineDetection 100 100 c3Wit).box.xmin ∧
    (refineDetection 100 100 c3Wit).box.xmin ≤
      (refineDetection 100 100 c3Wit).box.xmax ∧
    (refineDetection 100 100 c3Wit).box.xmax ≤ 99 := by
  have h0 : c3Wit.coords.getD 0 0 ≤ c3Wit.coords.getD 2 0 := by norm_num [c3Wit]
  have h1 : c3Wit.coords.getD 1 0 ≤ c3Wit.coords.getD 3 0 := by norm_num [c3Wit]
  have h := claimC3_amended 100 100 c3Wit h0 h1 (by norm_num) (by norm_num)
  exact ⟨⟨h0, h1⟩, h.1, h.2.1, h.2.2.1⟩

/-- C3: the claim is false as stated.  On a `128 × 128` frame, with the
single anchor `(1/2, 1/2, 1, 1)`, the raw row `c3Row` (raw score logit `0`,
so confidence `1/2 ≥ 0.25`) decodes to a well-formed normalized box lying
entirely below/right of the frame; suppression emits it unchanged and the
refinement stage clamps every box coordinate to `127`.  The produced
`Detection` therefore violates both `xmin < xmax` and `ymin < ymax`. -/
theorem claimC3_counterexample :
    detect expQ frontScales c3Anchors [c3Row] [0] (1 / 4) (3 / 10) 128 128 =
      some [c3Bad] ∧
    ¬ c3Bad.box.xmin < c3Bad.box.xmax ∧ ¬ c3Bad.box.ymin < c3Bad.box.ymax := by
  have hsig : sigmoidQ expQ (clipQ (-100) 100 0) = 1 / 2 := by
    norm_num [sigmoidQ, clipQ, expQ, min_def, max_def]
  have hd : decodeBoxes frontScales c3Anchors [c3Row] = [c3Dec.coords] := by
    show [decodeRow frontScales ⟨1 / 2, 1 / 2, 1, 1⟩ c3Row] = [c3Dec.coords]
    norm_num [decodeRow, frontScales, c3Row, c3Dec, List.range_succ]
  have hjac : jaccard c3Dec.box c3Dec.box = 1 := by
    norm_num [jaccard, intersectArea, boxArea, c3Dec, Det.box, unionFloor,
      min_def, max_def]
  have hkept : keptSet (3 / 10) c3Dec [c3Dec] = [] := by
    unfold keptSet
    rw [List.filter_cons]
    have : (!decide ((3 : ℚ) / 10 < jaccard c3Dec.box c3Dec.box)) = false := by
      rw [hjac]
      norm_num
    rw [this]
    simp
  have hover : overlapSet (3 / 10) c3Dec [c3Dec] = [c3Dec] := by
    unfold overlapSet
    rw [List.filter_cons]
    have : decide ((3 : ℚ) / 10 < jaccard c3Dec.box c3Dec.box) = true := by
      rw [hjac]
      norm_num
    rw [this]
    simp
  have hwnms : wnms [c3Dec] (3 / 10) = some [c3Dec] := by
    unfold wnms
    show wnmsFuel (3 / 10) 1 (sortDesc [c3Dec]) = some [c3Dec]
    have hsort : sortDesc [c3Dec] = [c3Dec] := rfl
    rw [hsort, wnmsFuel_cons, hkept, wnmsFuel_nil]
    have hr : roundOutput (3 / 10) c3Dec [c3Dec] = c3Dec := by
      unfold roundOutput
      rw [hover]
      simp
    rw [hr]
    rfl
  have hpost : postprocessDets expQ frontScales c3Anchors [c3Row] [0] (1 / 4) (3 / 10) =
      some [c3Dec] := by
    simp only [postprocessDets]
    rw [hd]
    norm_num [hsig, c3Dec, List.filterMap_cons, List.filterMap_nil]
    exact hwnms
  have hkps : kpsOf 128 128 c3Dec =
      [(50, 64), (80, 64), (64, 64), (64, 64), (60, 64), (110, 64)] := by
    norm_num [kpsOf, c3Dec, pxClamp, List.range_succ, min_def, max_def]
  have htilt : highlyTilted (kpsOf 128 128 c3Dec) := by
    rw [hkps]
    norm_num [highlyTilted, leftGap, rightGap]
  have hbox : rawPxBox 128 128 c3Dec = ⟨127, 127, 127, 127⟩ := by
    norm_num [rawPxBox, c3Dec, pxClamp, min_def, max_def]
  have href : refineDetection 128 128 c3Dec = c3Bad := by
    unfold refineDetection
    rw [if_pos htilt, hbox, hkps]
    norm_num [c3Bad, c3Dec]
  refine ⟨?_, by norm_num [c3Bad], by norm_num [c3Bad]⟩
  show (postprocessDets expQ frontScales c3Anchors [c3Row] [0] (1 / 4) (3 / 10)).map
      (fun l => l.map (refineDetection 128 128)) = some [c3Bad]
  rw [hpost]
  simp [href]

end FaceAnalysis
